import Mathlib

/-!
Verification of the `ludwig125/go_sync_pool` repository: shallow embeddings of
the pool-backed builders (`replicate_str_revised`), the pooled JSON
encode/decode helpers (`json`), the pooled gzip compress/decompress helpers
(`gzip`), and the allocation-measurement harness (`check_allocs2`), together
with proofs about them.

Machine integers are modelled as `Nat`/`Int` with explicit `% 2 ^ 64` where the
Go code performs `uint64` arithmetic; fallible Go code returns `Except`; a Go
runtime panic is modelled by an explicit result constructor.
-/

namespace GoSyncPool

/-! ## List helper lemmas (plumbing shared by several models) -/

theorem getD_set_self {α : Type} (d x : α) :
    ∀ (l : List α) (i : Nat), i < l.length → (l.set i x).getD i d = x := by
  intro l
  induction l with
  | nil => intro i h; simp at h
  | cons a t ih =>
    intro i h
    cases i with
    | zero => rfl
    | succ j =>
      simp only [List.set, List.getD, List.getElem?_cons_succ, List.length_cons] at *
      exact ih j (Nat.lt_of_succ_lt_succ h)

theorem getD_set_ne {α : Type} (d x : α) :
    ∀ (l : List α) (i j : Nat), i ≠ j → (l.set i x).getD j d = l.getD j d := by
  intro l
  induction l with
  | nil => intro i j _; simp [List.set]
  | cons a t ih =>
    intro i j hij
    cases i with
    | zero =>
      cases j with
      | zero => exact absurd rfl hij
      | succ k => rfl
    | succ i' =>
      cases j with
      | zero => rfl
      | succ k =>
        simp only [List.set, List.getD, List.getElem?_cons_succ]
        exact ih i' k (fun h => hij (by rw [h]))

theorem getD_append_left {α : Type} (d : α) :
    ∀ (l m : List α) (j : Nat), j < l.length → (l ++ m).getD j d = l.getD j d := by
  intro l
  induction l with
  | nil => intro m j h; simp at h
  | cons a t ih =>
    intro m j h
    cases j with
    | zero => rfl
    | succ k =>
      simp only [List.cons_append, List.getD, List.getElem?_cons_succ, List.length_cons] at *
      exact ih m k (Nat.lt_of_succ_lt_succ h)

theorem getD_append_length {α : Type} (d : α) :
    ∀ (l : List α) (x : α), (l ++ [x]).getD l.length d = x := by
  intro l
  induction l with
  | nil => intro x; rfl
  | cons a t ih => intro x; exact ih x

theorem take_append_self {α : Type} :
    ∀ (l m : List α), (l ++ m).take l.length = l := by
  intro l
  induction l with
  | nil => intro m; rfl
  | cons a t ih =>
    intro m
    simp only [List.cons_append, List.take, List.length_cons, List.append_eq, ih]

theorem take_append_cons {α : Type} :
    ∀ (l : List α) (x : α) (r : List α), (l ++ x :: r).take (l.length + 1) = l ++ [x] := by
  intro l
  induction l with
  | nil => intro x r; rfl
  | cons a t ih =>
    intro x r
    simp only [List.cons_append, List.length_cons, List.take, List.append_eq, ih]

theorem take_set_succ {α : Type} (x : α) :
    ∀ (l : List α) (k : Nat), k < l.length → (l.set k x).take (k + 1) = l.take k ++ [x] := by
  intro l
  induction l with
  | nil => intro k h; simp at h
  | cons a t ih =>
    intro k h
    cases k with
    | zero => rfl
    | succ j =>
      simp only [List.set, List.take, List.cons_append, List.length_cons] at *
      rw [ih j (Nat.lt_of_succ_lt_succ h)]

theorem drop_set_lt {α : Type} (x : α) :
    ∀ (l : List α) (i j : Nat), i < j → (l.set i x).drop j = l.drop j := by
  intro l
  induction l with
  | nil => intro i j _; simp [List.set]
  | cons a t ih =>
    intro i j hij
    cases j with
    | zero => exact absurd hij (Nat.not_lt_zero i)
    | succ k =>
      cases i with
      | zero => rfl
      | succ i' =>
        simp only [List.set, List.drop]
        exact ih i' k (Nat.lt_of_succ_lt_succ hij)

theorem drop_append_self {α : Type} :
    ∀ (l m : List α), (l ++ m).drop l.length = m := by
  intro l
  induction l with
  | nil => intro m; rfl
  | cons a t ih => intro m; exact ih m

/-! ## Model of Go string-slice heaps and `sync.Pool` of `*[]string`

From `src/replicate_str_revised/replicate_str_revised_test.go`.  A Go slice is
a view `(backing array, length)` into a heap of backing arrays; an array is a
list whose length is the slice capacity, positions at or beyond the slice
length holding stale values.  `append` writes in place while length < capacity
and reallocates (geometric growth) otherwise, exactly as the Go runtime does.
The pool is modelled as a stack, matching `sync.Pool`'s behaviour for a single
goroutine where a `Put` value is handed back by the next `Get`. -/

structure GoSlice where
  arr : Nat
  len : Nat
deriving DecidableEq

structure Heap where
  arrays : List (List String)
deriving DecidableEq

def Heap.read (h : Heap) (sl : GoSlice) : List String :=
  (h.arrays.getD sl.arr []).take sl.len

def Heap.capAt (h : Heap) (j : Nat) : Nat :=
  (h.arrays.getD j []).length

def Heap.wfSlice (h : Heap) (sl : GoSlice) : Prop :=
  sl.arr < h.arrays.length ∧ sl.len ≤ h.capAt sl.arr

instance (h : Heap) (sl : GoSlice) : Decidable (h.wfSlice sl) := by
  unfold Heap.wfSlice; infer_instance

/-- Capacity growth used by the Go runtime when a slice of strings is grown one
element at a time: the capacity doubles, starting from 1. -/
def growCap (c : Nat) : Nat := max 1 (2 * c)

/-- One `ss = append(ss, s)` step: write in place when there is spare capacity,
otherwise allocate a grown backing array and copy. -/
def Heap.appendElem (h : Heap) (sl : GoSlice) (s : String) : Heap × GoSlice :=
  if sl.len < h.capAt sl.arr then
    (⟨h.arrays.set sl.arr ((h.arrays.getD sl.arr []).set sl.len s)⟩, ⟨sl.arr, sl.len + 1⟩)
  else
    (⟨h.arrays ++ [(h.arrays.getD sl.arr []).take sl.len ++
        s :: List.replicate (growCap (h.capAt sl.arr) - (sl.len + 1)) ""]⟩,
      ⟨h.arrays.length, sl.len + 1⟩)

/-- The loop `for i := 0; i < n; i++ { ss = append(ss, s) }`. -/
def Heap.appendN (h : Heap) (sl : GoSlice) (s : String) : Nat → Heap × GoSlice
  | 0 => (h, sl)
  | n + 1 =>
    let p := h.appendElem sl s
    p.1.appendN p.2 s n

/-- The pool's `New` function, `return &[]string{}`: a fresh empty slice over a
fresh zero-capacity backing array. -/
def strSlicePoolNew (h : Heap) : Heap × GoSlice :=
  (⟨h.arrays ++ [[]]⟩, ⟨h.arrays.length, 0⟩)

structure RepState where
  heap : Heap
  pool : List GoSlice
deriving DecidableEq

def RepState.WF (st : RepState) : Prop :=
  ∀ sl ∈ st.pool, st.heap.wfSlice sl

instance (st : RepState) : Decidable st.WF := by
  unfold RepState.WF; infer_instance

/-- `ReplicateStrNTimes` from `replicate_str_revised_test.go`:
`ss := make([]string, n)` followed by the loop writing `s` at every index. -/
def ReplicateStrNTimes (s : String) (n : Nat) : List String :=
  (List.range n).foldl (fun ss i => ss.set i s) (List.replicate n "")

/-- `ReplicateStrNTimesWithPool` from `replicate_str_revised_test.go`:
`ss := pool.Get().(*[]string)`, truncate with `(*ss) = (*ss)[:0]`,
`defer pool.Put(ss)`, append `s` n times, `return *ss`.  The returned value is
the slice header; the deferred `Put` stores the same header, so the result
aliases the pooled backing array. -/
def ReplicateStrNTimesWithPool (s : String) (n : Nat) (st : RepState) :
    GoSlice × RepState :=
  match st.pool with
  | [] =>
    let p0 := strSlicePoolNew st.heap
    let p1 := p0.1.appendN ⟨p0.2.arr, 0⟩ s n
    (p1.2, ⟨p1.1, [p1.2]⟩)
  | x :: xs =>
    let p1 := st.heap.appendN ⟨x.arr, 0⟩ s n
    (p1.2, ⟨p1.1, p1.2 :: xs⟩)

/-- Running a sequence of pooled calls, recording each result's contents as
read at the moment that call returns. -/
def runPooledCalls : List (String × Nat) → RepState → List (List String) × RepState
  | [], st => ([], st)
  | c :: rest, st =>
    let p := ReplicateStrNTimesWithPool c.1 c.2 st
    let q := runPooledCalls rest p.2
    (p.2.heap.read p.1 :: q.1, q.2)

/-! ### Lemmas about append and the pooled builder -/

theorem appendElem_spec (h : Heap) (sl : GoSlice) (s : String) (hwf : h.wfSlice sl) :
    (h.appendElem sl s).2.len = sl.len + 1 ∧
    (h.appendElem sl s).1.read (h.appendElem sl s).2 = h.read sl ++ [s] ∧
    (h.appendElem sl s).1.wfSlice (h.appendElem sl s).2 ∧
    h.arrays.length ≤ (h.appendElem sl s).1.arrays.length ∧
    (∀ j, j < h.arrays.length → (h.appendElem sl s).1.capAt j = h.capAt j) := by
  obtain ⟨harr, hlen⟩ := hwf
  by_cases hlt : sl.len < h.capAt sl.arr
  · rw [Heap.appendElem, if_pos hlt]
    unfold Heap.capAt at hlt
    dsimp only
    refine ⟨rfl, ?_, ⟨?_, ?_⟩, ?_, ?_⟩
    · unfold Heap.read
      dsimp only
      rw [getD_set_self _ _ _ _ harr, take_set_succ _ _ _ hlt]
    · simpa [List.length_set] using harr
    · unfold Heap.capAt
      dsimp only
      rw [getD_set_self _ _ _ _ harr, List.length_set]
      omega
    · simp [List.length_set]
    · intro j hj
      unfold Heap.capAt
      dsimp only
      by_cases hje : sl.arr = j
      · subst hje
        rw [getD_set_self _ _ _ _ harr, List.length_set]
      · rw [getD_set_ne _ _ _ _ _ hje]
  · rw [Heap.appendElem, if_neg hlt]
    unfold Heap.capAt at hlt hlen
    have heq : sl.len = (h.arrays.getD sl.arr []).length := by omega
    dsimp only
    refine ⟨rfl, ?_, ⟨?_, ?_⟩, ?_, ?_⟩
    · unfold Heap.read
      dsimp only
      rw [getD_append_length]
      rw [heq, List.take_length, take_append_cons]
    · simp
    · unfold Heap.capAt
      dsimp only
      rw [getD_append_length]
      simp only [List.length_append, List.length_cons, List.length_replicate,
        List.length_take]
      omega
    · simp
    · intro j hj
      unfold Heap.capAt
      dsimp only
      rw [getD_append_left _ _ _ _ hj]

theorem appendN_spec (s : String) :
    ∀ (n : Nat) (h : Heap) (sl : GoSlice), h.wfSlice sl →
      (h.appendN sl s n).2.len = sl.len + n ∧
      (h.appendN sl s n).1.read (h.appendN sl s n).2 = h.read sl ++ List.replicate n s ∧
      (h.appendN sl s n).1.wfSlice (h.appendN sl s n).2 ∧
      h.arrays.length ≤ (h.appendN sl s n).1.arrays.length ∧
      (∀ j, j < h.arrays.length → (h.appendN sl s n).1.capAt j = h.capAt j) := by
  intro n
  induction n with
  | zero => intro h sl hwf; exact ⟨rfl, by simp [Heap.appendN], hwf, Nat.le_refl _, fun _ _ => rfl⟩
  | succ n ih =>
    intro h sl hwf
    obtain ⟨e1, e2, e3, e4, e5⟩ := appendElem_spec h sl s hwf
    obtain ⟨i1, i2, i3, i4, i5⟩ := ih (h.appendElem sl s).1 (h.appendElem sl s).2 e3
    have hdef : h.appendN sl s (n + 1) =
        (h.appendElem sl s).1.appendN (h.appendElem sl s).2 s n := rfl
    rw [hdef]
    refine ⟨by omega, ?_, i3, Nat.le_trans e4 i4, ?_⟩
    · rw [i2, e2, List.append_assoc]
      congr 1
    · intro j hj
      rw [i5 j (Nat.lt_of_lt_of_le hj e4), e5 j hj]

theorem appendN_inplace (s : String) :
    ∀ (n k : Nat) (h : Heap) (a : Nat), a < h.arrays.length → k + n ≤ h.capAt a →
      (h.appendN ⟨a, k⟩ s n).2 = ⟨a, k + n⟩ ∧
      (h.appendN ⟨a, k⟩ s n).1.arrays.length = h.arrays.length ∧
      (h.appendN ⟨a, k⟩ s n).1.capAt a = h.capAt a := by
  intro n
  induction n with
  | zero => intro k h a _ _; exact ⟨rfl, rfl, rfl⟩
  | succ n ih =>
    intro k h a harr hcap
    have hlt : GoSlice.len ⟨a, k⟩ < h.capAt (GoSlice.arr ⟨a, k⟩) := by
      simp only []
      omega
    have hstep : h.appendElem ⟨a, k⟩ s =
        (⟨h.arrays.set a ((h.arrays.getD a []).set k s)⟩, ⟨a, k + 1⟩) := by
      rw [Heap.appendElem, if_pos hlt]
    have hdef : h.appendN ⟨a, k⟩ s (n + 1) =
        (h.appendElem ⟨a, k⟩ s).1.appendN (h.appendElem ⟨a, k⟩ s).2 s n := rfl
    set h1 : Heap := ⟨h.arrays.set a ((h.arrays.getD a []).set k s)⟩ with hh1
    have hcap1 : h1.capAt a = h.capAt a := by
      unfold Heap.capAt
      rw [hh1]
      simp only []
      rw [getD_set_self _ _ _ _ harr, List.length_set]
    have hlen1 : h1.arrays.length = h.arrays.length := by simp [hh1, List.length_set]
    obtain ⟨j1, j2, j3⟩ := ih (k + 1) h1 a (by omega) (by omega)
    rw [hdef, hstep]
    refine ⟨?_, ?_, ?_⟩
    · simp only []
      rw [j1]
      congr 1
      omega
    · simp only []
      rw [j2, hlen1]
    · simp only []
      rw [j3, hcap1]

theorem foldl_set_range' (s : String) :
    ∀ (n k : Nat) (l : List String), k + n ≤ l.length →
      (List.range' k n).foldl (fun ss i => ss.set i s) l =
        l.take k ++ List.replicate n s ++ l.drop (k + n) := by
  intro n
  induction n with
  | zero => intro k l _; simp [List.take_append_drop]
  | succ n ih =>
    intro k l hle
    rw [List.range'_succ]
    simp only [List.foldl_cons]
    have hk : k < l.length := by omega
    rw [ih (k + 1) (l.set k s) (by rw [List.length_set]; omega)]
    rw [take_set_succ _ _ _ hk, drop_set_lt _ _ _ _ (by omega)]
    have harith : k + 1 + n = k + (n + 1) := by omega
    rw [harith]
    simp [List.replicate_succ, List.append_assoc]

theorem ReplicateStrNTimes_eq (s : String) (n : Nat) :
    ReplicateStrNTimes s n = List.replicate n s := by
  unfold ReplicateStrNTimes
  rw [List.range_eq_range']
  rw [foldl_set_range' s n 0 (List.replicate n "") (by simp)]
  simp

theorem withPool_step (s : String) (n : Nat) (st : RepState) (hwf : st.WF) :
    (ReplicateStrNTimesWithPool s n st).2.heap.read (ReplicateStrNTimesWithPool s n st).1 =
      List.replicate n s ∧
    (ReplicateStrNTimesWithPool s n st).2.WF ∧
    (ReplicateStrNTimesWithPool s n st).2.pool =
      (ReplicateStrNTimesWithPool s n st).1 :: st.pool.tail ∧
    (ReplicateStrNTimesWithPool s n st).1.len = n ∧
    (ReplicateStrNTimesWithPool s n st).2.heap.wfSlice (ReplicateStrNTimesWithPool s n st).1 := by
  obtain ⟨h, pool⟩ := st
  cases pool with
  | nil =>
    have hwf0 : (strSlicePoolNew h).1.wfSlice ⟨(strSlicePoolNew h).2.arr, 0⟩ := by
      constructor
      · simp [strSlicePoolNew]
      · exact Nat.zero_le _
    obtain ⟨a1, a2, a3, a4, a5⟩ := appendN_spec s n (strSlicePoolNew h).1 _ hwf0
    have hread0 : (strSlicePoolNew h).1.read ⟨(strSlicePoolNew h).2.arr, 0⟩ = [] := by
      simp [Heap.read]
    refine ⟨?_, ?_, rfl, by simpa using a1, a3⟩
    · rw [show (ReplicateStrNTimesWithPool s n ⟨h, []⟩).2.heap.read
          (ReplicateStrNTimesWithPool s n ⟨h, []⟩).1 =
          ((strSlicePoolNew h).1.appendN ⟨(strSlicePoolNew h).2.arr, 0⟩ s n).1.read
          ((strSlicePoolNew h).1.appendN ⟨(strSlicePoolNew h).2.arr, 0⟩ s n).2 from rfl]
      rw [a2, hread0]
      simp
    · intro sl hsl
      simp only [ReplicateStrNTimesWithPool, List.mem_singleton] at hsl
      subst hsl
      exact a3
  | cons x xs =>
    have hwf0 : h.wfSlice ⟨x.arr, 0⟩ := by
      constructor
      · exact (hwf x (List.mem_cons_self x xs)).1
      · exact Nat.zero_le _
    obtain ⟨a1, a2, a3, a4, a5⟩ := appendN_spec s n h ⟨x.arr, 0⟩ hwf0
    have hread0 : h.read ⟨x.arr, 0⟩ = [] := by simp [Heap.read]
    refine ⟨?_, ?_, rfl, by simpa using a1, a3⟩
    · rw [show (ReplicateStrNTimesWithPool s n ⟨h, x :: xs⟩).2.heap.read
          (ReplicateStrNTimesWithPool s n ⟨h, x :: xs⟩).1 =
          (h.appendN ⟨x.arr, 0⟩ s n).1.read (h.appendN ⟨x.arr, 0⟩ s n).2 from rfl]
      rw [a2, hread0]
      simp
    · intro sl hsl
      simp only [ReplicateStrNTimesWithPool, List.mem_cons] at hsl
      rcases hsl with hsl | hsl
      · subst hsl; exact a3
      · have hy := hwf sl (List.mem_cons_of_mem x hsl)
        constructor
        · exact Nat.lt_of_lt_of_le hy.1 a4
        · show sl.len ≤ (h.appendN ⟨x.arr, 0⟩ s n).1.capAt sl.arr
          rw [a5 sl.arr hy.1]
          exact hy.2

theorem runPooledCalls_spec :
    ∀ (calls : List (String × Nat)) (st : RepState), st.WF →
      (runPooledCalls calls st).1 = calls.map (fun c => ReplicateStrNTimes c.1 c.2) ∧
      (runPooledCalls calls st).2.WF := by
  intro calls
  induction calls with
  | nil => intro st hst; exact ⟨rfl, hst⟩
  | cons c rest ih =>
    intro st hst
    obtain ⟨s1, s2, _, _, _⟩ := withPool_step c.1 c.2 st hst
    obtain ⟨i1, i2⟩ := ih (ReplicateStrNTimesWithPool c.1 c.2 st).2 s2
    constructor
    · show (ReplicateStrNTimesWithPool c.1 c.2 st).2.heap.read
          (ReplicateStrNTimesWithPool c.1 c.2 st).1 ::
          (runPooledCalls rest (ReplicateStrNTimesWithPool c.1 c.2 st).2).1 = _
      rw [s1, i1, List.map_cons, ReplicateStrNTimes_eq]
    · exact i2

/-- C1: for every string s and count n ≥ 0, `ReplicateStrNTimes` and
`ReplicateStrNTimesWithPool` each return a sequence of length n whose every
element equals s, and the two implementations return equal results for the
same (s, n) on every call in any sequence of repeated calls — no content from
an earlier call leaks into a later result — starting from any (well-formed)
pool state, including the empty pool. -/
theorem replicate_pooled_equiv (calls : List (String × Nat)) (st : RepState)
    (hst : st.WF) :
    (∀ s n, ReplicateStrNTimes s n = List.replicate n s) ∧
    (runPooledCalls calls st).1 = calls.map (fun c => ReplicateStrNTimes c.1 c.2) ∧
    (runPooledCalls calls st).2.WF := by
  obtain ⟨r1, r2⟩ := runPooledCalls_spec calls st hst
  exact ⟨ReplicateStrNTimes_eq, r1, r2⟩

theorem replicate_pooled_equiv_witness :
    (RepState.mk ⟨[]⟩ []).WF ∧
    ((∀ s n, ReplicateStrNTimes s n = List.replicate n s) ∧
     (runPooledCalls [("12345", 5), ("ab", 3)] ⟨⟨[]⟩, []⟩).1 =
       ([("12345", 5), ("ab", 3)] : List (String × Nat)).map
         (fun c => ReplicateStrNTimes c.1 c.2) ∧
     (runPooledCalls [("12345", 5), ("ab", 3)] ⟨⟨[]⟩, []⟩).2.WF) :=
  ⟨by decide, replicate_pooled_equiv [("12345", 5), ("ab", 3)] ⟨⟨[]⟩, []⟩ (by decide)⟩

/-- C10: the sequence returned by `ReplicateStrNTimesWithPool` is a pool-owned
view, sharing its backing array with the instance released back to the pool:
after two consecutive calls with counts n and no intervening eviction, the
second call reuses the first call's backing array (same array index), and
re-reading the first call's returned slice now yields the second call's
element s2 at every position. -/
theorem replicate_pooled_view (s1 s2 : String) (n : Nat) (st : RepState)
    (hst : st.WF) :
    (ReplicateStrNTimesWithPool s2 n (ReplicateStrNTimesWithPool s1 n st).2).2.heap.read
        (ReplicateStrNTimesWithPool s1 n st).1 = List.replicate n s2 ∧
    (ReplicateStrNTimesWithPool s2 n (ReplicateStrNTimesWithPool s1 n st).2).1.arr =
      (ReplicateStrNTimesWithPool s1 n st).1.arr := by
  obtain ⟨_, _, hpool1, hlen1, hwf1⟩ := withPool_step s1 n st hst
  set p1 := ReplicateStrNTimesWithPool s1 n st with hp1
  have hst1 : p1.2 = ⟨p1.2.heap, p1.1 :: st.pool.tail⟩ := by rw [← hpool1]
  have h2 : ReplicateStrNTimesWithPool s2 n p1.2 =
      ((p1.2.heap.appendN ⟨p1.1.arr, 0⟩ s2 n).2,
        ⟨(p1.2.heap.appendN ⟨p1.1.arr, 0⟩ s2 n).1,
          (p1.2.heap.appendN ⟨p1.1.arr, 0⟩ s2 n).2 :: st.pool.tail⟩) := by
    rw [hst1]
    rfl
  have hwf0 : p1.2.heap.wfSlice ⟨p1.1.arr, 0⟩ := ⟨hwf1.1, Nat.zero_le _⟩
  obtain ⟨a1, a2, _, _, _⟩ := appendN_spec s2 n p1.2.heap ⟨p1.1.arr, 0⟩ hwf0
  have hcap : n ≤ p1.2.heap.capAt p1.1.arr := by
    have := hwf1.2
    omega
  obtain ⟨j1, _, _⟩ := appendN_inplace s2 n 0 p1.2.heap p1.1.arr hwf1.1
    (by simpa using hcap)
  have hsl : (p1.2.heap.appendN ⟨p1.1.arr, 0⟩ s2 n).2 = p1.1 := by
    rw [j1]
    have : p1.1 = ⟨p1.1.arr, p1.1.len⟩ := rfl
    rw [this, hlen1]
    congr 1
    omega
  have hread : (p1.2.heap.appendN ⟨p1.1.arr, 0⟩ s2 n).1.read p1.1 =
      (p1.2.heap.appendN ⟨p1.1.arr, 0⟩ s2 n).1.read
        (p1.2.heap.appendN ⟨p1.1.arr, 0⟩ s2 n).2 := by rw [hsl]
  constructor
  · rw [h2]
    dsimp only
    rw [hread, a2]
    simp [Heap.read]
  · rw [h2]
    dsimp only
    rw [hsl]

theorem replicate_pooled_view_witness :
    (RepState.mk ⟨[]⟩ []).WF ∧
    ((ReplicateStrNTimesWithPool "b" 2
        (ReplicateStrNTimesWithPool "a" 2 ⟨⟨[]⟩, []⟩).2).2.heap.read
        (ReplicateStrNTimesWithPool "a" 2 ⟨⟨[]⟩, []⟩).1 = List.replicate 2 "b" ∧
     (ReplicateStrNTimesWithPool "b" 2
        (ReplicateStrNTimesWithPool "a" 2 ⟨⟨[]⟩, []⟩).2).1.arr =
       (ReplicateStrNTimesWithPool "a" 2 ⟨⟨[]⟩, []⟩).1.arr) :=
  ⟨by decide, replicate_pooled_view "a" "b" 2 ⟨⟨[]⟩, []⟩ (by decide)⟩

/-! ## Model of the allocation-measurement harness

From `src/check_allocs2/check_allocs_test.go`.  A closure is modelled as a
function on a world carrying an opaque state component plus the cumulative
heap-allocation counter `runtime.MemStats.Mallocs`.  The harness's `uint64`
arithmetic (`mallocs := 0 - memstats.Mallocs; ...; mallocs += memstats.Mallocs;
mallocs / uint64(runs)`) is modelled with explicit `% 2 ^ 64`; the Go runtime
panic on integer division by zero is modelled by returning `none`.  The Go
return value `float64(mallocs / uint64(runs))` is the exact integer quotient,
so it is modelled as that natural number. -/

def U64 : Nat := 18446744073709551616

def U64I : Int := 18446744073709551616

structure MemWorld (σ : Type) where
  state : σ
  mallocs : Nat
deriving DecidableEq

/-- The loop `for i := 0; i < runs; i++ { f() }`. -/
def runLoop {σ : Type} (f : MemWorld σ → MemWorld σ) : Nat → MemWorld σ → MemWorld σ
  | 0, w => w
  | n + 1, w => runLoop f n (f w)

/-- `MyAllocsPerRun` from `check_allocs_test.go`: one unconditional warm-up
call of `f`, a reading of `Mallocs`, `runs` further calls, a second reading,
and the `uint64` computation `(0 - before + after) / uint64(runs)`.  `runs` is
a Go `int`; for `runs = 0` the division panics (`none`).  Returns the quotient
together with the final world. -/
def MyAllocsPerRun {σ : Type} (runs : Int) (f : MemWorld σ → MemWorld σ)
    (w : MemWorld σ) : Option (Nat × MemWorld σ) :=
  let w1 := f w
  let before := w1.mallocs
  let w2 := runLoop f runs.toNat w1
  let mallocs := ((U64 - before % U64) + w2.mallocs % U64) % U64
  let r64 := (runs % U64I).toNat
  if r64 = 0 then none else some (mallocs / r64, w2)

/-- A closure that bumps a call counter held in the world state and performs
`alloc k` heap allocations on its (k+1)-st invocation. -/
def countingClosure (alloc : Nat → Nat) : MemWorld Nat → MemWorld Nat :=
  fun w => ⟨w.state + 1, w.mallocs + alloc w.state⟩

/-- Total allocations over calls numbered `start, start+1, ..., start+n-1`. -/
def allocSum (alloc : Nat → Nat) (start : Nat) : Nat → Nat
  | 0 => 0
  | n + 1 => alloc start + allocSum alloc (start + 1) n

/-- A closure whose single heap allocation happens on its first-ever
invocation only, as for `AddNum` in `check_allocs_test.go`, whose pooled slice
is allocated by the pool's `New` on the first call and reused afterwards. -/
def firstCallAllocClosure : MemWorld Nat → MemWorld Nat :=
  fun w => if w.state = 0 then ⟨w.state + 1, w.mallocs + 1⟩ else ⟨w.state + 1, w.mallocs⟩

theorem runLoop_counting (alloc : Nat → Nat) :
    ∀ (n : Nat) (w : MemWorld Nat),
      runLoop (countingClosure alloc) n w =
        ⟨w.state + n, w.mallocs + allocSum alloc w.state n⟩ := by
  intro n
  induction n with
  | zero => intro w; simp [runLoop, allocSum]
  | succ n ih =>
    intro w
    show runLoop (countingClosure alloc) n (countingClosure alloc w) = _
    rw [ih]
    have hsum : allocSum alloc w.state (n + 1) =
        alloc w.state + allocSum alloc (w.state + 1) n := rfl
    dsimp only [countingClosure]
    rw [hsum]
    congr 1
    all_goals omega

theorem u64_diff (b a : Nat) (hba : b ≤ a) (ha : a < U64) :
    ((U64 - b % U64) + a % U64) % U64 = a - b := by
  have hb : b < U64 := Nat.lt_of_le_of_lt hba ha
  rw [Nat.mod_eq_of_lt hb, Nat.mod_eq_of_lt ha]
  have h1 : (U64 - b) + a = U64 + (a - b) := by omega
  rw [h1, Nat.add_mod_left, Nat.mod_eq_of_lt (by omega)]

/-- C3: the harness invokes f exactly once as an uncounted warm-up, then
exactly `runs` more times, and returns the total number of new heap
allocations observed across those `runs` invocations divided by `runs` using
truncating integer division.  Stated for any per-call allocation profile
`alloc` whose running total stays below 2^64 (always true of the 64-bit
runtime counter). -/
theorem MyAllocsPerRun_eq {σ : Type} (runs : Int) (f : MemWorld σ → MemWorld σ)
    (w : MemWorld σ) :
    MyAllocsPerRun runs f w =
      if (runs % U64I).toNat = 0 then none
      else some ((((U64 - (f w).mallocs % U64) +
          (runLoop f runs.toNat (f w)).mallocs % U64) % U64) / (runs % U64I).toNat,
        runLoop f runs.toNat (f w)) := rfl

/-- C3: the harness invokes f exactly once as an uncounted warm-up, then
exactly `runs` more times, and returns the total number of new heap
allocations observed across those `runs` invocations divided by `runs` using
truncating integer division (so any fractional per-run result below 1 is
reported as 0).  Stated for any per-call allocation profile `alloc` whose
running total stays below 2^64, as is always true of the 64-bit runtime
counter; the final world's call counter records exactly 1 + runs
invocations. -/
theorem MyAllocsPerRun_spec (runs : Int) (h1 : 1 ≤ runs)
    (h2 : runs < 9223372036854775808) (alloc : Nat → Nat) (w : MemWorld Nat)
    (hb : w.mallocs + allocSum alloc w.state (runs.toNat + 1) < U64) :
    MyAllocsPerRun runs (countingClosure alloc) w =
      some (allocSum alloc (w.state + 1) runs.toNat / runs.toNat,
        ⟨w.state + (runs.toNat + 1), w.mallocs + allocSum alloc w.state (runs.toNat + 1)⟩) := by
  have hlt : runs < U64I := by unfold U64I; omega
  have hrn : runs % U64I = runs := Int.emod_eq_of_lt (by omega) hlt
  have hS : allocSum alloc w.state (runs.toNat + 1) =
      alloc w.state + allocSum alloc (w.state + 1) runs.toNat := rfl
  have hw2 : runLoop (countingClosure alloc) runs.toNat (countingClosure alloc w) =
      ⟨w.state + 1 + runs.toNat,
        w.mallocs + alloc w.state + allocSum alloc (w.state + 1) runs.toNat⟩ := by
    rw [runLoop_counting]
    rfl
  rw [MyAllocsPerRun_eq, hrn, if_neg (by omega), hw2]
  dsimp only [countingClosure]
  rw [u64_diff (w.mallocs + alloc w.state)
    (w.mallocs + alloc w.state + allocSum alloc (w.state + 1) runs.toNat)
    (by omega) (by omega)]
  have e0 : w.mallocs + alloc w.state + allocSum alloc (w.state + 1) runs.toNat -
      (w.mallocs + alloc w.state) = allocSum alloc (w.state + 1) runs.toNat := by omega
  have e1 : w.state + 1 + runs.toNat = w.state + (runs.toNat + 1) := by omega
  have e2 : w.mallocs + alloc w.state + allocSum alloc (w.state + 1) runs.toNat =
      w.mallocs + allocSum alloc w.state (runs.toNat + 1) := by rw [hS]; omega
  rw [e0, e1, e2]

theorem MyAllocsPerRun_spec_witness :
    (1 : Int) ≤ 2 ∧ (2 : Int) < 9223372036854775808 ∧
    (MemWorld.mk 0 0 : MemWorld Nat).mallocs +
      allocSum (fun _ => 1) (MemWorld.mk 0 0 : MemWorld Nat).state ((2 : Int).toNat + 1) < U64 ∧
    MyAllocsPerRun 2 (countingClosure (fun _ => 1)) ⟨0, 0⟩ =
      some (allocSum (fun _ => 1) (0 + 1) (2 : Int).toNat / (2 : Int).toNat,
        ⟨0 + ((2 : Int).toNat + 1), 0 + allocSum (fun _ => 1) 0 ((2 : Int).toNat + 1)⟩) :=
  ⟨by decide, by decide, by unfold U64; decide,
    MyAllocsPerRun_spec 2 (by decide) (by decide) (fun _ => 1) ⟨0, 0⟩ (by unfold U64; decide)⟩

/-- C4 counterexample: a closure that performs exactly one heap allocation on
every call does not make `MyAllocsPerRun(1, f)` return 0: the warm-up absorbs
only the warm-up call's own allocation, the single counted run still allocates
once, and 1 / 1 = 1. -/
theorem MyAllocsPerRun_one_alloc_per_call :
    (MyAllocsPerRun 1 (countingClosure (fun _ => 1)) ⟨0, 0⟩).map Prod.fst = some 1 ∧
    (MyAllocsPerRun 1 (countingClosure (fun _ => 1)) ⟨0, 0⟩).map Prod.fst ≠ some 0 ∧
    (MyAllocsPerRun 5 (countingClosure (fun _ => 1)) ⟨0, 0⟩).map Prod.fst = some 1 :=
  ⟨by decide, by decide, by decide⟩

/-- C4 (amended): for a closure whose single heap allocation happens on its
first-ever invocation only (such as a pool-filling closure), the warm-up
invocation absorbs the allocation, so `MyAllocsPerRun(1, f) = 0` and
`MyAllocsPerRun(5, f) = 0`; the result is 0 whenever the total allocations
over the counted runs is below `runs`, and becomes the correct non-zero
quotient once that total divided by `runs` is at least 1, e.g. a
two-allocations-per-call closure measured over 5 runs yields 10 / 5 = 2. -/
theorem MyAllocsPerRun_warmup_absorption :
    (MyAllocsPerRun 1 firstCallAllocClosure ⟨0, 0⟩).map Prod.fst = some 0 ∧
    (MyAllocsPerRun 5 firstCallAllocClosure ⟨0, 0⟩).map Prod.fst = some 0 ∧
    (MyAllocsPerRun 5 (countingClosure (fun _ => 2)) ⟨0, 0⟩).map Prod.fst = some 2 :=
  ⟨by decide, by decide, by decide⟩

/-- C9: `MyAllocsPerRun` is only total for runs ≥ 1.  For runs = 0 the final
`mallocs / uint64(runs)` divides by zero and the Go program panics (modelled
as `none`); under the precondition 1 ≤ runs (and runs within the Go int64
range) the division and the `uint64(runs)` conversion are safe and a value is
returned. -/
theorem MyAllocsPerRun_total_iff {σ : Type} (f : MemWorld σ → MemWorld σ)
    (w : MemWorld σ) (runs : Int) (h1 : 1 ≤ runs) (h2 : runs < 9223372036854775808) :
    MyAllocsPerRun 0 f w = none ∧
    ∃ v, MyAllocsPerRun runs f w = some v := by
  constructor
  · rfl
  · have hlt : runs < U64I := by unfold U64I; omega
    have hrn : runs % U64I = runs := Int.emod_eq_of_lt (by omega) hlt
    rw [MyAllocsPerRun_eq, hrn, if_neg (by omega)]
    exact ⟨_, rfl⟩

theorem MyAllocsPerRun_total_iff_witness :
    (1 : Int) ≤ 3 ∧ (3 : Int) < 9223372036854775808 ∧
    (MyAllocsPerRun 0 firstCallAllocClosure ⟨0, 0⟩ = none ∧
      ∃ v, MyAllocsPerRun 3 firstCallAllocClosure ⟨0, 0⟩ = some v) :=
  ⟨by decide, by decide,
    MyAllocsPerRun_total_iff firstCallAllocClosure ⟨0, 0⟩ 3 (by decide) (by decide)⟩

/-! ## Model of the pooled JSON encode/decode helpers

From `src/json/json_test.go`.  The record type `JsonData` has an int id, a
string name and a `[]string` items field (`none` models a Go nil slice).  The
JSON texts exchanged by these functions are modelled at the level of parsed
objects of the record shape (`JsonValue`): for each key, whether it is present
and, for items, whether it is `null` or a list.  `encoding/json.Unmarshal`
into an existing struct sets exactly the fields present in the input, sets a
slice field to nil on JSON `null`, and leaves absent fields unchanged; this
documented semantics of the external codec is `unmarshalInto`.  A buffer
(`bytes.Buffer`) holding encoded text is a list of such values, one per
`Encode` call appended to it. -/

structure JsonData where
  ID : Int
  Name : String
  Items : Option (List String)
deriving DecidableEq

/-- The Go zero value `JsonData{}`: id 0, empty name, nil items. -/
def JsonData.zero : JsonData := ⟨0, "", none⟩

structure JsonValue where
  id : Option Int
  name : Option String
  items : Option (Option (List String))
deriving DecidableEq

/-- `json.Unmarshal` of a well-formed record-shaped input into an existing
`JsonData` value: present fields are overwritten, JSON `null` sets the slice
to nil, absent fields keep their previous contents. -/
def unmarshalInto (d : JsonData) (j : JsonValue) : JsonData :=
  { ID := j.id.getD d.ID,
    Name := j.name.getD d.Name,
    Items := match j.items with
      | none => d.Items
      | some it => it }

/-- `json.Marshal` of a `JsonData`: all three keys are emitted, a nil items
slice as `null`. -/
def marshalJSON (d : JsonData) : JsonValue :=
  ⟨some d.ID, some d.Name, some d.Items⟩

/-- `EncodeJSON` from `json_test.go`: `json.Marshal(in)`, which cannot fail
for this record type; the produced text holds exactly one value. -/
def EncodeJSON (d : JsonData) : Except String (List JsonValue) :=
  .ok [marshalJSON d]

/-- `EncodeJSONStreamWithPool` from `json_test.go`: take a `bytes.Buffer` from
`encRespPool` (or a fresh empty one), `buf.Reset()`, encode into it, return
the buffer's contents (newline trimmed) and `Put` the buffer back. -/
def EncodeJSONStreamWithPool (d : JsonData) (p : List (List JsonValue)) :
    Except String (List JsonValue) × List (List JsonValue) :=
  match p with
  | [] => (.ok ([] ++ [marshalJSON d]), ([] ++ [marshalJSON d]) :: [])
  | _ :: bs => (.ok ([] ++ [marshalJSON d]), ([] ++ [marshalJSON d]) :: bs)

/-- `DecodeJSON` from `json_test.go`: `var res JsonData` then
`json.Unmarshal([]byte(in), &res)`; errors unless the text is exactly one
well-formed value. -/
def DecodeJSON (txt : List JsonValue) : Except String JsonData :=
  match txt with
  | [j] => .ok (unmarshalInto JsonData.zero j)
  | _ => .error "json unmarshal error"

/-- `DecodeJSONWithPool` from `json_test.go`: `res := decRespPool.Get().(*JsonData)`,
`defer decRespPool.Put(res)`, `json.Unmarshal([]byte(in), &res)`, `return *res`.
There is no reset of `res` before unmarshalling: fields absent from the input
keep whatever the previous decode left in the pooled struct. -/
def DecodeJSONWithPool (txt : List JsonValue) (p : List JsonData) :
    Except String JsonData × List JsonData :=
  match p with
  | [] =>
    match txt with
    | [j] => ((.ok (unmarshalInto JsonData.zero j)), unmarshalInto JsonData.zero j :: [])
    | _ => (.error "json unmarshal error", JsonData.zero :: [])
  | x :: xs =>
    match txt with
    | [j] => ((.ok (unmarshalInto x j)), unmarshalInto x j :: xs)
    | _ => (.error "json unmarshal error", x :: xs)

theorem unmarshalInto_marshal (d r : JsonData) :
    unmarshalInto d (marshalJSON r) = r := rfl

/-- C2: the claim that `DecodeJSONWithPool` fully resets the pooled record
before populating it fails on the code.  Decoding a full record and then an
input that omits the items key returns the first decode's stale items list,
not the zero value: the function never clears the struct obtained from
`decRespPool` and `json.Unmarshal` leaves absent fields unchanged. -/
theorem DecodeJSONWithPool_stale_field :
    (DecodeJSONWithPool [⟨some 2, some "Bob", none⟩]
        (DecodeJSONWithPool [⟨some 1, some "Jack", some (some ["knife", "shield", "herbs"])⟩]
          []).2).1 =
      .ok ⟨2, "Bob", some ["knife", "shield", "herbs"]⟩ ∧
    (some ["knife", "shield", "herbs"] : Option (List String)) ≠ JsonData.zero.Items :=
  ⟨rfl, by decide⟩

/-- C5: for every record r, decode (encode r) = r on the non-pooled path and
on the pooled path, from any pool states, and again on a second consecutive
invocation with the same r. -/
theorem json_roundtrip (r : JsonData) (encP : List (List JsonValue))
    (decP : List JsonData) :
    (∃ t, EncodeJSON r = .ok t ∧ DecodeJSON t = .ok r) ∧
    (∃ t1 encP1, EncodeJSONStreamWithPool r encP = (.ok t1, encP1) ∧
      (DecodeJSONWithPool t1 decP).1 = .ok r ∧
      ∃ t2 encP2, EncodeJSONStreamWithPool r encP1 = (.ok t2, encP2) ∧
        (DecodeJSONWithPool t2 (DecodeJSONWithPool t1 decP).2).1 = .ok r) := by
  have hEnc : ∀ p : List (List JsonValue), EncodeJSONStreamWithPool r p =
      (.ok [marshalJSON r], [marshalJSON r] :: p.tail) := by
    intro p
    cases p <;> rfl
  have hDec : ∀ q : List JsonData, (DecodeJSONWithPool [marshalJSON r] q).1 = .ok r := by
    intro q
    cases q with
    | nil =>
      show Except.ok (unmarshalInto JsonData.zero (marshalJSON r)) = Except.ok r
      rw [unmarshalInto_marshal]
    | cons x xs =>
      show Except.ok (unmarshalInto x (marshalJSON r)) = Except.ok r
      rw [unmarshalInto_marshal]
  refine ⟨⟨[marshalJSON r], rfl, ?_⟩,
    [marshalJSON r], [marshalJSON r] :: encP.tail, hEnc encP, hDec decP,
    [marshalJSON r], [marshalJSON r] :: encP.tail, ?_, hDec _⟩
  · show Except.ok (unmarshalInto JsonData.zero (marshalJSON r)) = Except.ok r
    rw [unmarshalInto_marshal]
  · rw [hEnc]
    rfl

/-! ## Model of the gzip compress/decompress helpers

From `src/gzip/gzip_test.go`.  Bytes are `Nat`.  The external `compress/gzip`
codec is modelled by the spec's format invariants: a compressed stream is a
10-byte header followed by a length-prefixed body and a terminating checksum;
constructing or resetting a reader requires a parseable header and fails with
EOF on an empty source and with a header error otherwise
(`gzip.NewReader(bytes.Buffer{})` returns a nil reader and EOF).  A Go runtime
panic (nil `*gzip.Reader` dereference) is the `crash` outcome. -/

def gzipHeader : List Nat := [31, 139, 8, 0, 0, 0, 0, 0, 0, 255]

def gzipChecksum (b : List Nat) : Nat := b.foldl (· + ·) 0

/-- The byte stream produced by `gzip.NewWriter` + `Write(data)` + `Close`:
header, length prefix, payload, checksum. -/
def gzipEncode (b : List Nat) : List Nat :=
  gzipHeader ++ b.length :: (b ++ [gzipChecksum b])

/-- Header validation performed when a `gzip.Reader` is constructed against or
reset to a source: empty source gives EOF, anything not starting with a valid
header gives a header error. -/
def checkGzipHeader (data : List Nat) : Except String Unit :=
  if data = [] then .error "EOF"
  else if data.take 10 = gzipHeader ∧ 10 ≤ data.length then .ok ()
  else .error "gzip: invalid header"

/-- Reading the whole decompressed body after a valid header: fails when the
stream is truncated or the checksum does not match. -/
def gzipDecodeBody (data : List Nat) : Except String (List Nat) :=
  match data.drop 10 with
  | [] => .error "unexpected EOF"
  | len :: rest =>
    if _h : len + 1 ≤ rest.length then
      if rest.getD len 0 = gzipChecksum (rest.take len) then .ok (rest.take len)
      else .error "gzip: invalid checksum"
    else .error "unexpected EOF"

/-- `Gzip` from `gzip_test.go`: write `data` through a fresh gzip writer into
a fresh buffer and return the buffer's bytes. -/
def Gzip (data : List Nat) : Except String (List Nat) :=
  .ok (gzipEncode data)

/-- `Gunzip` from `gzip_test.go`: `gzip.NewReader` over the bytes (error when
the header is invalid), then `io.Copy` of the whole body. -/
def Gunzip (data : List Nat) : Except String (List Nat) :=
  match checkGzipHeader data with
  | .error e => .error ("failed to gzip.NewReader: " ++ e)
  | .ok _ =>
    match gzipDecodeBody data with
    | .error e => .error ("failed to io.Copy: " ++ e)
    | .ok b => .ok b

/-- A pooled `gzipWriter` instance: the long-lived output buffer contents
(the `gzip.Writer` itself carries no state that survives its `Reset`). -/
structure gzipWriter where
  buf : List Nat
deriving DecidableEq

/-- `GzipWithGzipWriterPool` from `gzip_test.go`: take a `gzipWriter` from
`gzipWriterPool` (or make a fresh one), `gw.buf.Reset()`, `gw.w.Reset(gw.buf)`,
write and close, return `gw.buf.Bytes()` and `Put` the instance back. -/
def GzipWithGzipWriterPool (data : List Nat) (p : List gzipWriter) :
    Except String (List Nat) × List gzipWriter :=
  match p with
  | [] => (.ok ([] ++ gzipEncode data), ⟨[] ++ gzipEncode data⟩ :: [])
  | _ :: xs => (.ok ([] ++ gzipEncode data), ⟨[] ++ gzipEncode data⟩ :: xs)

/-- A pooled `gzipReader` instance: whether the wrapped `*gzip.Reader` is
non-nil, and the long-lived buffer contents. -/
structure gzipReader where
  r : Bool
  buf : List Nat
deriving DecidableEq

/-- The `gzipReaderPool` factory from `gzip_test.go`:
`buf := new(bytes.Buffer); r, _ := gzip.NewReader(buf)`.  The source is empty,
so `gzip.NewReader` fails with EOF and the discarded error leaves `r = nil`:
the fresh instance carries no usable reader. -/
def gzipReaderPoolNew : gzipReader := ⟨false, []⟩

inductive GoOutcome (α : Type) where
  | ok (val : α)
  | err (msg : String)
  | crash (msg : String)
deriving DecidableEq

/-- `GunzipWithGzipReaderPool` from `gzip_test.go`: take a `gzipReader` from
the pool (or the factory), reset its buffer; if the wrapped reader is non-nil,
`Reset` it against the input (returning the error on a bad header, in which
case the instance is never `Put` back because that `defer` has not run yet);
otherwise construct a reader from the real input with the error discarded —
when that construction fails the reader stays nil and the subsequent
`ioutil.ReadAll(gr.r)` / deferred `gr.r.Close()` dereference a nil pointer
(`crash`).  On success the decompressed bytes are written into the instance's
buffer, returned, and the instance is `Put` back. -/
def GunzipWithGzipReaderPool (data : List Nat) (p : List gzipReader) :
    GoOutcome (List Nat) × List gzipReader :=
  match p with
  | [] =>
    match checkGzipHeader data with
    | .error _ => (.crash "invalid memory address or nil pointer dereference", [])
    | .ok _ =>
      match gzipDecodeBody data with
      | .error e => (.err ("failed to ReadAll: " ++ e), ⟨true, []⟩ :: [])
      | .ok d => (.ok ([] ++ d), ⟨true, [] ++ d⟩ :: [])
  | gr :: xs =>
    if gr.r then
      match checkGzipHeader data with
      | .error e => (.err e, xs)
      | .ok _ =>
        match gzipDecodeBody data with
        | .error e => (.err ("failed to ReadAll: " ++ e), ⟨true, []⟩ :: xs)
        | .ok d => (.ok ([] ++ d), ⟨true, [] ++ d⟩ :: xs)
    else
      match checkGzipHeader data with
      | .error _ => (.crash "invalid memory address or nil pointer dereference", xs)
      | .ok _ =>
        match gzipDecodeBody data with
        | .error e => (.err ("failed to ReadAll: " ++ e), ⟨true, []⟩ :: xs)
        | .ok d => (.ok ([] ++ d), ⟨true, [] ++ d⟩ :: xs)

theorem checkGzipHeader_encode (b : List Nat) :
    checkGzipHeader (gzipEncode b) = .ok () := by
  unfold checkGzipHeader gzipEncode
  rw [if_neg (by simp [gzipHeader])]
  rw [if_pos]
  constructor
  · show (gzipHeader ++ b.length :: (b ++ [gzipChecksum b])).take gzipHeader.length = gzipHeader
    rw [take_append_self]
  · simp [gzipHeader]

theorem gzipDecodeBody_encode (b : List Nat) :
    gzipDecodeBody (gzipEncode b) = .ok b := by
  unfold gzipDecodeBody gzipEncode
  rw [show ((gzipHeader ++ b.length :: (b ++ [gzipChecksum b])).drop 10) =
    b.length :: (b ++ [gzipChecksum b]) from drop_append_self gzipHeader _]
  have hlen : b.length + 1 ≤ (b ++ [gzipChecksum b]).length := by simp
  dsimp only
  rw [dif_pos hlen]
  rw [show (b ++ [gzipChecksum b]).take b.length = b from take_append_self _ _]
  rw [if_pos (getD_append_length _ _ _)]

theorem Gunzip_encode (b : List Nat) : Gunzip (gzipEncode b) = .ok b := by
  unfold Gunzip
  rw [checkGzipHeader_encode, gzipDecodeBody_encode]

theorem gunzipPool_encode (b : List Nat) :
    ∀ rp : List gzipReader, GunzipWithGzipReaderPool (gzipEncode b) rp =
      (.ok b, ⟨true, b⟩ :: rp.tail) := by
  intro rp
  cases rp with
  | nil =>
    simp [GunzipWithGzipReaderPool, checkGzipHeader_encode, gzipDecodeBody_encode]
  | cons gr xs =>
    cases hr : gr.r <;>
      simp [GunzipWithGzipReaderPool, hr, checkGzipHeader_encode, gzipDecodeBody_encode]

theorem gzipPool_encode (b : List Nat) :
    ∀ wp : List gzipWriter, GzipWithGzipWriterPool b wp =
      (.ok (gzipEncode b), ⟨gzipEncode b⟩ :: wp.tail) := by
  intro wp
  cases wp <;> rfl

/-- C6: for every byte sequence b, including the empty one, decompressing the
compression of b returns exactly b on the non-pooled path (`Gzip`/`Gunzip`)
and on the pooled paths (`GzipWithGzipWriterPool`/`GunzipWithGzipReaderPool`),
from any pool states, and on each of three consecutive invocations. -/
theorem gzip_roundtrip (b : List Nat) (wp : List gzipWriter) (rp : List gzipReader) :
    Gzip b = .ok (gzipEncode b) ∧
    Gunzip (gzipEncode b) = .ok b ∧
    (GzipWithGzipWriterPool b wp).1 = .ok (gzipEncode b) ∧
    (GzipWithGzipWriterPool b (GzipWithGzipWriterPool b wp).2).1 = .ok (gzipEncode b) ∧
    (GzipWithGzipWriterPool b
      (GzipWithGzipWriterPool b (GzipWithGzipWriterPool b wp).2).2).1 = .ok (gzipEncode b) ∧
    (GunzipWithGzipReaderPool (gzipEncode b) rp).1 = .ok b ∧
    (GunzipWithGzipReaderPool (gzipEncode b)
      (GunzipWithGzipReaderPool (gzipEncode b) rp).2).1 = .ok b ∧
    (GunzipWithGzipReaderPool (gzipEncode b)
      (GunzipWithGzipReaderPool (gzipEncode b)
        (GunzipWithGzipReaderPool (gzipEncode b) rp).2).2).1 = .ok b := by
  refine ⟨rfl, Gunzip_encode b, ?_, ?_, ?_, ?_, ?_, ?_⟩ <;>
    simp [gzipPool_encode, gunzipPool_encode]

/-- C7: decompressing an input without a valid header.  The non-pooled
`Gunzip` fails with a format error and yields no output bytes, both on the
zero-length input and on non-header garbage.  The pooled
`GunzipWithGzipReaderPool`, however, does not: when the acquired instance is
freshly manufactured (empty pool) its reader is nil, the in-call
`gzip.NewReader(b)` on the invalid input also fails with its error discarded,
and the function dereferences the nil reader — a crash, not an error return.
Only an instance that already carries a reader fails cleanly. -/
theorem gunzip_invalid_header :
    Gunzip [] = .error "failed to gzip.NewReader: EOF" ∧
    Gunzip [1, 2, 3] = .error "failed to gzip.NewReader: gzip: invalid header" ∧
    (GunzipWithGzipReaderPool [] []).1 =
      .crash "invalid memory address or nil pointer dereference" ∧
    (GunzipWithGzipReaderPool [1, 2, 3] []).1 =
      .crash "invalid memory address or nil pointer dereference" ∧
    (GunzipWithGzipReaderPool [] [⟨true, []⟩]).1 = .err "EOF" ∧
    (GunzipWithGzipReaderPool [1, 2, 3] [⟨true, []⟩]).1 = .err "gzip: invalid header" :=
  ⟨rfl, rfl, rfl, rfl, rfl, rfl⟩

/-- C8 counterexample: the `gzipReaderPool` factory constructs its reader
against an empty buffer, so the construction fails at factory time and the
freshly manufactured instance carries a nil decompressor; consequently a call
served by a fresh instance does not behave like one served by an instance
holding a usable reader. -/
theorem gzipReaderPool_factory_fails :
    gzipReaderPoolNew.r = false ∧
    (GunzipWithGzipReaderPool [] []).1 ≠ (GunzipWithGzipReaderPool [] [⟨true, []⟩]).1 :=
  ⟨rfl, by decide⟩

/-- C8 (amended): the factory constructs the wrapped reader against an empty
source, which fails with EOF; the discarded error leaves a nil reader in every
freshly manufactured instance.  `GunzipWithGzipReaderPool` compensates with a
nil check: on a fresh instance it constructs the reader from the real input,
succeeding on every valid stream; every instance released after a successful
call carries a usable (non-nil) reader, and a call served by such an instance
only `Reset`s it against the new input, returning an error (not crashing) on
a bad header. -/
theorem gzipReaderPool_lazy_construction (b : List Nat) (rp : List gzipReader) :
    gzipReaderPoolNew.r = false ∧
    (GunzipWithGzipReaderPool (gzipEncode b) []).1 = .ok b ∧
    (GunzipWithGzipReaderPool (gzipEncode b) rp).2.headD gzipReaderPoolNew =
      ⟨true, b⟩ ∧
    (GunzipWithGzipReaderPool [] [⟨true, []⟩]).1 = .err "EOF" := by
  refine ⟨rfl, ?_, ?_, rfl⟩
  · rw [gunzipPool_encode]
  · rw [gunzipPool_encode]
    rfl

end GoSyncPool
